import Mathlib

set_option linter.unusedSectionVars false

/-!
Verification of the `asymintervals` AIN relation-graph module (`aingraph.py`).

The embedding models the two core computations of `AINGraph`:

* `AINGraph.__init__`: validation of the input collection, construction of the
  undirected weighted relation graph over pairwise preference-degree products,
  and assignment of node label/color attributes from the global color palette
  (`plt.rcParams`), which is modelled as an explicit `palette` input.
* the greedy level packer inlined in `AINGraph.plot_intervals` (the pure part
  that partitions indices into display levels; the drawing calls that consume
  the levels are presentation and are not modelled).

Numeric values (interval bounds and preference degrees, `float` in the source,
reals in the spec) are modelled over an arbitrary linear ordered commutative
ring `α`; the general theorems hold for every such `α` (in particular `ℚ`),
and concrete examples are evaluated over `ℤ`.

The `AIN` class itself lives in `asymintervals.py`, outside the verified
module; its comparison operators are modelled from the spec (see `specGT`).
-/

namespace AsymIntervals

variable {α : Type} [LinearOrderedCommRing α]

/-- An asymmetric interval number: lower bound, upper bound and internal
expected value (`AIN` from `asymintervals.py`; an external entity for the
graph module, referenced not owned). -/
structure AIN (α : Type) where
  lower : α
  upper : α
  expected : α
deriving DecidableEq

instance : Inhabited (AIN α) := ⟨⟨0, 0, 0⟩⟩

/-- Modelled from the spec: the directional preference-degree comparison of
two AINs (`AIN.__gt__` in `asymintervals.py`, which is not part of the graph
module). The spec requires a scalar in `[0, 1]` expressing the degree that
`a` exceeds `b`, with the product of the two directions zero exactly when
there is no ambiguity (one interval entirely at or below the other, including
a shared endpoint). Modelled as the certainty degree: `0` when `a` lies
entirely at or below `b`, else `1`. -/
def specGT (a b : AIN ℤ) : ℤ :=
  if a.upper ≤ b.lower then 0 else 1

/-- A networkx-style undirected graph: nodes in insertion order, edges as
`(i, j, weight)` triples in insertion order (`nx.Graph`). -/
structure NXGraph (α : Type) where
  nodes : List ℕ
  edges : List (ℕ × ℕ × α)
deriving DecidableEq

/-- `nx.Graph` node insertion: a node is appended only if not yet present. -/
def NXGraph.addNode (g : NXGraph α) (i : ℕ) : NXGraph α :=
  if i ∈ g.nodes then g else { g with nodes := g.nodes ++ [i] }

/-- `nx.Graph.add_edge(i, j, weight=w)`: both endpoints are inserted as nodes
if absent, then the weighted edge is recorded. (The construction below never
adds the same pair twice, so plain appending matches networkx.) -/
def NXGraph.addEdge (g : NXGraph α) (i j : ℕ) (w : α) : NXGraph α :=
  let g1 := g.addNode i
  let g2 := g1.addNode j
  { g2 with edges := g2.edges ++ [(i, j, w)] }

/-- `itertools.combinations(enumerate(list_of_ains), 2)`: all index pairs
`(i, j)` with `i < j < n`, in lexicographic order. -/
def pairs (n : ℕ) : List (ℕ × ℕ) :=
  (List.range n).flatMap (fun i => (List.range' (i + 1) (n - (i + 1))).map (fun j => (i, j)))

/-- The pairwise relation weight `w = (a > b) * (a < b)`: the product of the
two directional preference degrees of the AINs at indices `i` and `j`. -/
def edgeWeight (gt : AIN α → AIN α → α) (l : List (AIN α)) (i j : ℕ) : α :=
  gt (l.getD i default) (l.getD j default) * gt (l.getD j default) (l.getD i default)

/-- One iteration of the edge-construction loop of `AINGraph.__init__`:
compute `w = (a > b) * (a < b)` for the pair and add the edge iff `w > 0`. -/
def edgeStep (gt : AIN α → AIN α → α) (l : List (AIN α)) (g : NXGraph α)
    (p : ℕ × ℕ) : NXGraph α :=
  if 0 < edgeWeight gt l p.1 p.2 then g.addEdge p.1 p.2 (edgeWeight gt l p.1 p.2) else g

/-- The edge-construction loop of `AINGraph.__init__` over all pairs `i < j`,
starting from the empty `nx.Graph()`. -/
def buildEdges (gt : AIN α → AIN α → α) (l : List (AIN α)) : NXGraph α :=
  (pairs l.length).foldl (edgeStep gt l) ⟨[], []⟩

/-- The node-attribute loop of `AINGraph.__init__`: iterate
`zip(self.graph.nodes, self.list_of_ains)` and give node `i` the label
`chr(ord('A') + i)` (modelled as the code point `65 + i`) and the color
`colors[i % len(colors)]` from the palette read from `plt.rcParams`. -/
def buildAttrs (palette : List ℕ) (nodes : List ℕ) (l : List (AIN α)) :
    List (ℕ × ℕ × ℕ) :=
  (nodes.zip l).map (fun p => (p.1, 65 + p.1, palette.getD (p.1 % palette.length) 0))

/-- The state produced by a successful `AINGraph.__init__`: the stored
collection, the relation graph, and the node attributes. -/
structure AINGraph (α : Type) where
  list_of_ains : List (AIN α)
  graph : NXGraph α
  attrs : List (ℕ × ℕ × ℕ)
deriving DecidableEq

/-- The graph-building part of `AINGraph.__init__`, after validation: store
the collection, build the edges, assign node attributes. `palette` models the
process-wide `plt.rcParams` color cycle read during construction. -/
def AINGraph.build (gt : AIN α → AIN α → α) (palette : List ℕ) (l : List (AIN α)) :
    AINGraph α :=
  let g := buildEdges gt l
  { list_of_ains := l, graph := g, attrs := buildAttrs palette g.nodes l }

/-- An element of the Python input list: either an `AIN` instance or some
other object (`isinstance(ain, AIN)` fails on it). -/
inductive Entry (α : Type) where
  | ain (a : AIN α)
  | notAnAIN
deriving DecidableEq

/-- `isinstance(ain, AIN)`. -/
def Entry.isAIN : Entry α → Bool
  | .ain _ => true
  | .notAnAIN => false

/-- The `AIN` payload of a validated entry. -/
def Entry.toAIN : Entry α → AIN α
  | .ain a => a
  | .notAnAIN => default

/-- The two error kinds the module raises: `ValueError` from `__init__` and
`NotImplementedError` from `add_ain`. -/
inductive AINError where
  | valueError
  | notImplementedError
deriving DecidableEq

/-- `AINGraph.__init__`: first validate that every element is an `AIN`
(raising `ValueError` otherwise, before any graph state is built), then build
the graph. -/
def AINGraph.init (gt : AIN α → AIN α → α) (palette : List ℕ) (l : List (Entry α)) :
    Except AINError (AINGraph α) :=
  if l.all Entry.isAIN then
    .ok (AINGraph.build gt palette (l.map Entry.toAIN))
  else
    .error .valueError

/-- `AINGraph.add_ain`: unconditionally raises `NotImplementedError`. -/
def AINGraph.add_ain (_g : AINGraph α) (_x : AIN α) : Except AINError (AINGraph α) :=
  .error .notImplementedError

/-- Whether a stored edge triple matches the unordered pair `{i, j}` (an
`nx.Graph` treats `(i, j)` and `(j, i)` as the same edge). -/
def edgeMatches (i j : ℕ) (e : ℕ × ℕ × α) : Bool :=
  (decide (e.1 = i) && decide (e.2.1 = j)) || (decide (e.1 = j) && decide (e.2.1 = i))

/-- Edge lookup in the undirected graph (`self.graph.edges[i, j]`): the first
stored edge matching the pair in either orientation, if any. -/
def NXGraph.getWeight (g : NXGraph α) (i j : ℕ) : Option α :=
  (g.edges.find? (edgeMatches i j)).map (fun e => e.2.2)

/-- Whether the undirected graph has an edge between `i` and `j`. -/
def NXGraph.hasEdge (g : NXGraph α) (i j : ℕ) : Bool :=
  (g.getWeight i j).isSome

/-- The skip test of the level packer in `AINGraph.plot_intervals`:
`(a > b) * (a < b) != 0 or a.lower == b.upper or a.upper == b.lower`.
A candidate is added to the current level only when this is `false`. -/
def skipB (gt : AIN α → AIN α → α) (a b : AIN α) : Bool :=
  decide (gt a b * gt b a ≠ 0) || decide (a.lower = b.upper) || decide (a.upper = b.lower)

/-- One step of the inner loop of the level packer: state is the current
level and the set (as a list) of already-placed indices; candidate `j` is
appended to both unless already placed or skipped by `skipB` against the
level's seed `a`. -/
def innerStep (gt : AIN α → AIN α → α) (l : List (AIN α)) (a : AIN α)
    (st : List ℕ × List ℕ) (j : ℕ) : List ℕ × List ℕ :=
  if j ∈ st.2 then st
  else if skipB gt a (l.getD j default) then st
  else (st.1 ++ [j], st.2 ++ [j])

/-- One step of the outer loop of the level packer: state is the list of
completed levels and the placed indices; a not-yet-placed index `i` seeds a
new level and the inner loop scans all indices against it. -/
def outerStep (gt : AIN α → AIN α → α) (l : List (AIN α))
    (st : List (List ℕ) × List ℕ) (i : ℕ) : List (List ℕ) × List ℕ :=
  if i ∈ st.2 then st
  else
    let r := (List.range' 0 l.length).foldl (innerStep gt l (l.getD i default))
      ([i], st.2 ++ [i])
    (st.1 ++ [r.1], r.2)

/-- The greedy level packer of `AINGraph.plot_intervals` (lines 183-202): the
ordered list of levels, each a list of indices in the order placed. -/
def packLevels (gt : AIN α → AIN α → α) (l : List (AIN α)) : List (List ℕ) :=
  ((List.range' 0 l.length).foldl (outerStep gt l) ([], [])).1

/-- The worked example of the spec: `A = [AIN(0,2), AIN(1,5), AIN(3,4)]`
(expected values chosen inside the bounds, as the spec leaves them to the AIN
contract's default). -/
def exampleAins : List (AIN ℤ) := [⟨0, 2, 1⟩, ⟨1, 5, 3⟩, ⟨3, 4, 3⟩]

/-- A collection with two disjoint intervals: neither pair produces an edge,
so `add_edge` is never called. -/
def disjointAins : List (AIN ℤ) := [⟨0, 1, 0⟩, ⟨2, 3, 2⟩]

/-- A collection where the second and third intervals are both compatible
with the first (the seed) but overlap each other. -/
def cexAins : List (AIN ℤ) := [⟨0, 1, 0⟩, ⟨2, 5, 3⟩, ⟨3, 6, 4⟩]

/-- A sample palette standing for the default `plt.rcParams` color cycle. -/
def examplePalette : List ℕ := [10, 20, 30]

/-- The invariant of the outer level-packing loop once every index below `s`
has been processed. The state `st` is `(levels, added)`: the placed indices
are exactly the flattened levels, without duplicates and in range; all
indices below `s` are placed; every level is nonempty, strictly increasing,
and has all non-seed members compatible with its seed; every level's seed is
below `s` and larger than the seeds of all earlier levels, and every index
below a level's seed is placed in an earlier level. -/
def PackInv (gt : AIN α → AIN α → α) (l : List (AIN α)) (s : ℕ)
    (st : List (List ℕ) × List ℕ) : Prop :=
  st.2 = st.1.flatten ∧
  st.2.Nodup ∧
  (∀ m ∈ st.2, m < l.length) ∧
  (∀ m, m < s → m ∈ st.2) ∧
  (∀ lvl ∈ st.1, lvl ≠ [] ∧ lvl.Pairwise (· < ·) ∧
    ∀ j ∈ lvl.tail, skipB gt (l.getD (lvl.headD 0) default) (l.getD j default) = false) ∧
  (∀ lvl ∈ st.1, lvl.headD 0 < s) ∧
  (∀ k, ∀ h : k < st.1.length, ∀ m, m < (st.1.get ⟨k, h⟩).headD 0 →
    m ∈ (st.1.take k).flatten) ∧
  (st.1.map (fun lvl => lvl.headD 0)).Pairwise (· < ·)

/-! ### Claim theorems: error handling and concrete evaluations -/

/-- C6: `add_ain` always fails with `NotImplementedError`, whatever the
instance and the argument, and that error kind is distinct from the
`ValueError` raised by construction. -/
theorem add_ain_always_not_implemented (g : AINGraph α) (x : AIN α) :
    AINGraph.add_ain g x = .error .notImplementedError ∧
    AINError.notImplementedError ≠ AINError.valueError :=
  ⟨rfl, by decide⟩

/-- C5: constructing from a collection containing any non-AIN element fails
with `ValueError`; the result is the bare error, so no partial graph state is
observable. -/
theorem init_rejects_non_ain (gt : AIN α → AIN α → α) (palette : List ℕ)
    (l : List (Entry α)) (h : ∃ e ∈ l, e.isAIN = false) :
    AINGraph.init gt palette l = .error .valueError := by
  have hall : l.all Entry.isAIN = false := by
    rcases h with ⟨e, he, hf⟩
    rcases hb : l.all Entry.isAIN with _ | _
    · rfl
    · exact absurd (List.all_eq_true.mp hb e he) (by simp [hf])
  simp [AINGraph.init, hall]

/-- Witness for C5 at the concrete input `[<non-AIN object>]`. -/
theorem init_rejects_non_ain_witness :
    AINGraph.init specGT [] [Entry.notAnAIN] = .error .valueError :=
  init_rejects_non_ain specGT [] [Entry.notAnAIN] ⟨Entry.notAnAIN, by decide, rfl⟩

/-- C7: on the spec's worked example the graph has edges `{0,1}` and `{1,2}`
but not `{0,2}`, and the level packer yields exactly `[[0, 2], [1]]`: index 0
seeds level 0, index 2 joins it, index 1 alone forms level 1. -/
theorem worked_example_graph_and_levels :
    (AINGraph.build specGT examplePalette exampleAins).graph.hasEdge 0 1 = true ∧
    (AINGraph.build specGT examplePalette exampleAins).graph.hasEdge 1 2 = true ∧
    (AINGraph.build specGT examplePalette exampleAins).graph.hasEdge 0 2 = false ∧
    packLevels specGT exampleAins = [[0, 2], [1]] := by
  decide

/-- C1 (code bug): on a collection of two valid but disjoint AINs the
constructed graph has no node at all, not 2 nodes: `__init__` only ever calls
`add_edge`, so an AIN with no edge never becomes a node. -/
theorem isolated_ains_missing_from_nodes :
    disjointAins.length = 2 ∧
    (AINGraph.build specGT examplePalette disjointAins).graph.nodes = [] := by
  decide

/-- C9 (counterexample): graph construction reads the process-wide
`plt.rcParams` color cycle; with the same input collection but a different
global palette the constructed object differs (in its node color
attributes), so the result does not depend on the input collection alone. -/
theorem build_depends_on_global_palette :
    AINGraph.build specGT [10] exampleAins ≠ AINGraph.build specGT [20] exampleAins := by
  decide

/-- C9 (amended): construction and level packing are deterministic given the
input collection and the global palette in effect, and everything except the
node color attributes — the stored collection, the nodes, edges and weights,
and the level assignment — depends on the input collection alone. -/
theorem build_deterministic_given_palette (gt : AIN α → AIN α → α)
    (p₁ p₂ : List ℕ) (l : List (AIN α)) :
    AINGraph.build gt p₁ l = AINGraph.build gt p₁ l ∧
    packLevels gt l = packLevels gt l ∧
    (AINGraph.build gt p₁ l).graph = (AINGraph.build gt p₂ l).graph ∧
    (AINGraph.build gt p₁ l).list_of_ains = (AINGraph.build gt p₂ l).list_of_ains :=
  ⟨rfl, rfl, rfl, rfl⟩

/-- C3 (counterexample): the level packer can place two mutually overlapping
intervals in the same level, because each candidate is checked only against
the level's seed: with `[[0,1], [2,5], [3,6]]` both `[2,5]` and `[3,6]` join
the level seeded by `[0,1]`, yet their mutual preference-degree product is
nonzero. -/
theorem level_members_can_overlap :
    ∃ lvl ∈ packLevels specGT cexAins, ∃ i ∈ lvl, ∃ j ∈ lvl,
      i ≠ j ∧ edgeWeight specGT cexAins i j ≠ 0 := by
  decide

/-! ### Edge-set characterisation of the built graph -/

/-- `addNode` never touches the edge list. -/
theorem addNode_edges (g : NXGraph α) (i : ℕ) : (g.addNode i).edges = g.edges := by
  unfold NXGraph.addNode
  split <;> rfl

/-- `addEdge` appends exactly one edge triple. -/
theorem addEdge_edges (g : NXGraph α) (i j : ℕ) (w : α) :
    (g.addEdge i j w).edges = g.edges ++ [(i, j, w)] := by
  simp [NXGraph.addEdge, addNode_edges]

/-- The edge list one `edgeStep` adds: the pair's triple iff its weight is
positive. -/
theorem edgeStep_edges (gt : AIN α → AIN α → α) (l : List (AIN α))
    (g : NXGraph α) (p : ℕ × ℕ) :
    (edgeStep gt l g p).edges =
      g.edges ++ (if 0 < edgeWeight gt l p.1 p.2
        then [(p.1, p.2, edgeWeight gt l p.1 p.2)] else []) := by
  unfold edgeStep
  by_cases h : 0 < edgeWeight gt l p.1 p.2
  · rw [if_pos h, if_pos h, addEdge_edges]
  · rw [if_neg h, if_neg h, List.append_nil]

/-- The edge list produced by folding `edgeStep` is the filter-map of the
processed pairs: the pairs with positive weight, each with its weight. -/
theorem foldl_edgeStep_edges (gt : AIN α → AIN α → α) (l : List (AIN α))
    (ps : List (ℕ × ℕ)) (g : NXGraph α) :
    (ps.foldl (edgeStep gt l) g).edges =
      g.edges ++ ps.filterMap (fun p =>
        if 0 < edgeWeight gt l p.1 p.2 then some (p.1, p.2, edgeWeight gt l p.1 p.2)
        else none) := by
  induction ps generalizing g with
  | nil => simp
  | cons p ps ih =>
    rw [List.foldl_cons, ih, edgeStep_edges, List.filterMap_cons]
    by_cases h : 0 < edgeWeight gt l p.1 p.2
    · simp [h, List.append_assoc]
    · simp [h]

/-- Membership in the combinations list: `(i, j)` occurs iff `i < j < n`. -/
theorem mem_pairs {n : ℕ} {p : ℕ × ℕ} : p ∈ pairs n ↔ p.1 < p.2 ∧ p.2 < n := by
  cases p with
  | mk i j =>
    simp only [pairs, List.mem_flatMap, List.mem_map, List.mem_range, List.mem_range'_1,
      Prod.mk.injEq]
    constructor
    · rintro ⟨i', hi', j', ⟨h1, h2⟩, rfl, rfl⟩
      omega
    · rintro ⟨hij, hjn⟩
      exact ⟨i, by omega, j, ⟨by omega, by omega⟩, rfl, rfl⟩

/-- An edge triple is stored iff its indices form an in-range pair `i < j`
whose weight is positive, and the stored scalar is exactly that weight. -/
theorem mem_buildEdges (gt : AIN α → AIN α → α) (l : List (AIN α)) (e : ℕ × ℕ × α) :
    e ∈ (buildEdges gt l).edges ↔
      e.1 < e.2.1 ∧ e.2.1 < l.length ∧ 0 < edgeWeight gt l e.1 e.2.1 ∧
        e.2.2 = edgeWeight gt l e.1 e.2.1 := by
  obtain ⟨i, j, w⟩ := e
  rw [buildEdges, foldl_edgeStep_edges]
  simp only [List.nil_append, List.mem_filterMap]
  constructor
  · rintro ⟨p, hp, hf⟩
    rw [mem_pairs] at hp
    by_cases h : 0 < edgeWeight gt l p.1 p.2
    · rw [if_pos h] at hf
      obtain ⟨rfl, rfl, rfl⟩ : p.1 = i ∧ p.2 = j ∧ edgeWeight gt l p.1 p.2 = w := by
        injection hf with hf
        exact ⟨congrArg Prod.fst hf, congrArg Prod.fst (congrArg Prod.snd hf),
          congrArg Prod.snd (congrArg Prod.snd hf)⟩
      exact ⟨hp.1, hp.2, h, rfl⟩
    · rw [if_neg h] at hf
      cases hf
  · rintro ⟨h1, h2, h3, h4⟩
    refine ⟨(i, j), mem_pairs.mpr ⟨h1, h2⟩, ?_⟩
    rw [if_pos h3, h4]

/-- Unfolding of the unordered edge-pair test. -/
theorem edgeMatches_iff (i j : ℕ) (e : ℕ × ℕ × α) :
    edgeMatches i j e = true ↔ (e.1 = i ∧ e.2.1 = j) ∨ (e.1 = j ∧ e.2.1 = i) := by
  simp [edgeMatches]

/-- `hasEdge` holds exactly when some stored edge matches the pair. -/
theorem hasEdge_iff (g : NXGraph α) (i j : ℕ) :
    g.hasEdge i j = true ↔ ∃ e ∈ g.edges, edgeMatches i j e = true := by
  unfold NXGraph.hasEdge NXGraph.getWeight
  cases hf : g.edges.find? (edgeMatches i j) with
  | none =>
    rw [List.find?_eq_none] at hf
    simp only [Option.map_none', Option.isSome_none, Bool.false_eq_true, false_iff]
    rintro ⟨e, he, hp⟩
    exact hf e he hp
  | some e =>
    simp only [Option.map_some', Option.isSome_some, true_iff]
    exact ⟨e, List.mem_of_find?_eq_some hf, List.find?_some hf⟩

/-- The pair product is symmetric in the two indices (commutativity of the
multiplication of the two directional degrees). -/
theorem edgeWeight_comm (gt : AIN α → AIN α → α) (l : List (AIN α)) (i j : ℕ) :
    edgeWeight gt l i j = edgeWeight gt l j i :=
  mul_comm _ _

/-- C2: for distinct in-range indices, the edge `{i, j}` exists iff the
product of the two directional preference degrees is strictly positive; any
stored weight for the pair is exactly that product; and no stored edge is a
self-loop. -/
theorem edge_iff_positive_product (gt : AIN α → AIN α → α) (l : List (AIN α))
    (i j : ℕ) (hi : i < l.length) (hj : j < l.length) (hij : i ≠ j) :
    ((buildEdges gt l).hasEdge i j = true ↔ 0 < edgeWeight gt l i j) ∧
    (∀ w, (buildEdges gt l).getWeight i j = some w → w = edgeWeight gt l i j) ∧
    (∀ e ∈ (buildEdges gt l).edges, e.1 ≠ e.2.1) := by
  refine ⟨?_, ?_, ?_⟩
  · rw [hasEdge_iff]
    constructor
    · rintro ⟨e, he, hm⟩
      rw [mem_buildEdges] at he
      rcases (edgeMatches_iff i j e).mp hm with ⟨h1, h2⟩ | ⟨h1, h2⟩
      · rw [h1, h2] at he
        exact he.2.2.1
      · rw [h1, h2] at he
        rw [edgeWeight_comm]
        exact he.2.2.1
    · intro hw
      rcases Nat.lt_or_ge i j with hlt | hge
      · refine ⟨(i, j, edgeWeight gt l i j), ?_, ?_⟩
        · rw [mem_buildEdges]
          exact ⟨hlt, hj, hw, rfl⟩
        · rw [edgeMatches_iff]
          exact Or.inl ⟨rfl, rfl⟩
      · have hlt : j < i := lt_of_le_of_ne hge (Ne.symm hij)
        refine ⟨(j, i, edgeWeight gt l j i), ?_, ?_⟩
        · rw [mem_buildEdges]
          exact ⟨hlt, hi, by rw [← edgeWeight_comm gt l i j]; exact hw, rfl⟩
        · rw [edgeMatches_iff]
          exact Or.inr ⟨rfl, rfl⟩
  · intro w hw
    unfold NXGraph.getWeight at hw
    cases hf : (buildEdges gt l).edges.find? (edgeMatches i j) with
    | none => rw [hf] at hw; cases hw
    | some e =>
      rw [hf] at hw
      have he := (mem_buildEdges gt l e).mp (List.mem_of_find?_eq_some hf)
      have hm := (edgeMatches_iff i j e).mp (List.find?_some hf)
      have hwe : w = e.2.2 := by
        injection hw with hw
        exact hw.symm
      rcases hm with ⟨h1, h2⟩ | ⟨h1, h2⟩
      · rw [hwe, he.2.2.2, h1, h2]
      · rw [hwe, he.2.2.2, h1, h2, edgeWeight_comm]
  · intro e he
    exact Nat.ne_of_lt ((mem_buildEdges gt l e).mp he).1

/-- Witness for C2 on the worked example at the pair `(0, 1)`: the product is
positive, so the edge exists. -/
theorem edge_iff_positive_product_witness :
    (buildEdges specGT exampleAins).hasEdge 0 1 = true :=
  ((edge_iff_positive_product specGT exampleAins 0 1 (by decide) (by decide)
    (by decide)).1).mpr (by decide)

/-- C8: querying the stored weight of a pair in either order yields the same
result, for every graph state this module constructs. -/
theorem getWeight_symmetric (g : NXGraph α) (i j : ℕ) :
    g.getWeight i j = g.getWeight j i := by
  unfold NXGraph.getWeight
  have key : ∀ es : List (ℕ × ℕ × α), es.find? (edgeMatches i j) = es.find? (edgeMatches j i) := by
    intro es
    induction es with
    | nil => rfl
    | cons e es ih =>
      have hp : edgeMatches i j e = edgeMatches j i e := Bool.or_comm _ _
      simp only [List.find?, hp]
      cases edgeMatches j i e <;> simp [ih]
  rw [key]

/-! ### The level packer: loop invariants -/

/-- The inner loop of the level packer only ever appends: starting from level
`lvl` and placed set `added`, it returns `(lvl ++ t, added ++ t)` where the
appended indices `t` are strictly increasing, within the scanned range, not
previously placed, and all compatible with the seed value `a`. -/
theorem inner_spec (gt : AIN α → AIN α → α) (l : List (AIN α)) (a : AIN α) :
    ∀ (k s : ℕ) (lvl added : List ℕ),
    ∃ t, (List.range' s k).foldl (innerStep gt l a) (lvl, added) = (lvl ++ t, added ++ t) ∧
      t.Nodup ∧ t.Pairwise (· < ·) ∧
      (∀ j ∈ t, s ≤ j ∧ j < s + k ∧ j ∉ added ∧
        skipB gt a (l.getD j default) = false) := by
  intro k
  induction k with
  | zero =>
    intro s lvl added
    exact ⟨[], by simp, List.nodup_nil, List.Pairwise.nil, by simp⟩
  | succ k ih =>
    intro s lvl added
    rw [List.range'_succ, List.foldl_cons]
    by_cases h1 : s ∈ added
    · have hstep : innerStep gt l a (lvl, added) s = (lvl, added) := by
        simp [innerStep, h1]
      rw [hstep]
      obtain ⟨t, ht, hnd, hpw, hmem⟩ := ih (s + 1) lvl added
      refine ⟨t, ht, hnd, hpw, fun j hj => ?_⟩
      obtain ⟨ha, hb, hc, hd⟩ := hmem j hj
      exact ⟨by omega, by omega, hc, hd⟩
    · by_cases h2 : skipB gt a (l.getD s default) = true
      · have hstep : innerStep gt l a (lvl, added) s = (lvl, added) := by
          unfold innerStep
          rw [if_neg h1, if_pos h2]
        rw [hstep]
        obtain ⟨t, ht, hnd, hpw, hmem⟩ := ih (s + 1) lvl added
        refine ⟨t, ht, hnd, hpw, fun j hj => ?_⟩
        obtain ⟨ha, hb, hc, hd⟩ := hmem j hj
        exact ⟨by omega, by omega, hc, hd⟩
      · have h2' : skipB gt a (l.getD s default) = false := by
          rcases hb : skipB gt a (l.getD s default) with _ | _
          · rfl
          · exact absurd hb h2
        have hstep : innerStep gt l a (lvl, added) s = (lvl ++ [s], added ++ [s]) := by
          unfold innerStep
          rw [if_neg h1, if_neg h2]
        rw [hstep]
        obtain ⟨t, ht, hnd, hpw, hmem⟩ := ih (s + 1) (lvl ++ [s]) (added ++ [s])
        refine ⟨s :: t, ?_, ?_, ?_, ?_⟩
        · rw [ht, List.append_assoc, List.append_assoc]
          rfl
        · rw [List.nodup_cons]
          refine ⟨fun hs => ?_, hnd⟩
          exact (hmem s hs).2.2.1 (List.mem_append.mpr (Or.inr (List.mem_singleton.mpr rfl)))
        · rw [List.pairwise_cons]
          refine ⟨fun j hj => ?_, hpw⟩
          have := (hmem j hj).1
          omega
        · intro j hj
          rcases List.mem_cons.mp hj with rfl | hj'
          · exact ⟨le_refl j, by omega, h1, h2'⟩
          · obtain ⟨ha, hb, hc, hd⟩ := hmem j hj'
            refine ⟨by omega, by omega, fun hja => ?_, hd⟩
            exact hc (List.mem_append.mpr (Or.inl hja))

/-- One outer step preserves the packing invariant, advancing the processed
bound past the index just handled. -/
theorem outerStep_inv (gt : AIN α → AIN α → α) (l : List (AIN α)) (s : ℕ)
    (st : List (List ℕ) × List ℕ) (hs : s < l.length)
    (hinv : PackInv gt l s st) : PackInv gt l (s + 1) (outerStep gt l st s) := by
  obtain ⟨h1, h2, h3, h4, h5, h6, h7, h8⟩ := hinv
  by_cases hmem : s ∈ st.2
  · have hres : outerStep gt l st s = st := by
      unfold outerStep
      rw [if_pos hmem]
    rw [hres]
    refine ⟨h1, h2, h3, fun m hm => ?_, h5, fun lvl hl => ?_, h7, h8⟩
    · rcases Nat.lt_or_ge m s with h | h
      · exact h4 m h
      · have hm' : m = s := by omega
        rw [hm']
        exact hmem
    · have := h6 lvl hl
      omega
  · obtain ⟨t, ht, htnd, htpw, htmem⟩ :=
      inner_spec gt l (l.getD s default) l.length 0 [s] (st.2 ++ [s])
    have hres : outerStep gt l st s = (st.1 ++ [s :: t], st.2 ++ (s :: t)) := by
      unfold outerStep
      rw [if_neg hmem]
      simp only [ht]
      simp [List.append_assoc]
    have hts : ∀ j ∈ t, j ∉ st.2 ∧ j ≠ s := by
      intro j hj
      have h := (htmem j hj).2.2.1
      rw [List.mem_append] at h
      push_neg at h
      exact ⟨h.1, by simpa using h.2⟩
    have htgt : ∀ j ∈ t, s < j := by
      intro j hj
      obtain ⟨hns, hne⟩ := hts j hj
      rcases Nat.lt_trichotomy j s with h | h | h
      · exact absurd (h4 j h) hns
      · exact absurd h hne
      · exact h
    have htln : ∀ j ∈ t, j < l.length := by
      intro j hj
      have := (htmem j hj).2.1
      omega
    have hsnt : s ∉ t := fun hs' => (hts s hs').2 rfl
    rw [hres]
    refine ⟨?_, ?_, ?_, ?_, ?_, ?_, ?_, ?_⟩
    · show st.2 ++ (s :: t) = (st.1 ++ [s :: t]).flatten
      rw [List.flatten_append, ← h1]
      simp
    · show (st.2 ++ (s :: t)).Nodup
      rw [List.nodup_append]
      refine ⟨h2, ?_, ?_⟩
      · rw [List.nodup_cons]
        exact ⟨hsnt, htnd⟩
      · intro x hx hx'
        rcases List.mem_cons.mp hx' with rfl | hx''
        · exact hmem hx
        · exact (hts x hx'').1 hx
    · intro m hm
      rcases List.mem_append.mp hm with h | h
      · exact h3 m h
      · rcases List.mem_cons.mp h with rfl | h'
        · exact hs
        · exact htln m h'
    · intro m hm
      rcases Nat.lt_or_ge m s with h | h
      · exact List.mem_append.mpr (Or.inl (h4 m h))
      · have hm' : m = s := by omega
        rw [hm']
        exact List.mem_append.mpr (Or.inr (List.mem_cons_self _ _))
    · intro lvl hl
      rcases List.mem_append.mp hl with h | h
      · exact h5 lvl h
      · have hl' : lvl = s :: t := by simpa using h
        rw [hl']
        refine ⟨List.cons_ne_nil _ _, List.pairwise_cons.mpr ⟨htgt, htpw⟩, ?_⟩
        intro j hj
        exact (htmem j hj).2.2.2
    · intro lvl hl
      rcases List.mem_append.mp hl with h | h
      · have := h6 lvl h
        omega
      · have hl' : lvl = s :: t := by simpa using h
        rw [hl']
        simp
    · intro k hk m hmlt
      by_cases hkl : k < st.1.length
      · have hget : (st.1 ++ [s :: t]).get ⟨k, hk⟩ = st.1.get ⟨k, hkl⟩ := by
          rw [List.get_eq_getElem, List.get_eq_getElem, List.getElem_append_left hkl]
        have htake : (st.1 ++ [s :: t]).take k = st.1.take k :=
          List.take_append_of_le_length (by omega)
        rw [hget] at hmlt
        rw [htake]
        exact h7 k hkl m hmlt
      · have hlen : (st.1 ++ [s :: t]).length = st.1.length + 1 := by simp
        have hke : k = st.1.length := by
          rw [hlen] at hk
          omega
        subst hke
        have hget : (st.1 ++ [s :: t]).get ⟨st.1.length, hk⟩ = s :: t := by
          rw [List.get_eq_getElem, List.getElem_append_right (le_refl _)]
          simp
        rw [hget, List.headD_cons] at hmlt
        rw [List.take_left, ← h1]
        exact h4 m hmlt
    · rw [List.map_append, List.pairwise_append]
      refine ⟨h8, by simp, ?_⟩
      intro x hx b hb
      rw [List.mem_map] at hx
      obtain ⟨lvl, hl, rfl⟩ := hx
      have hb' : b = s := by simpa using hb
      rw [hb']
      exact h6 lvl hl

/-- Folding the outer loop over a range of indices preserves the invariant,
advancing the processed bound over the whole range. -/
theorem outer_spec (gt : AIN α → AIN α → α) (l : List (AIN α)) :
    ∀ (k s : ℕ) (st : List (List ℕ) × List ℕ), s + k ≤ l.length →
      PackInv gt l s st →
      PackInv gt l (s + k) ((List.range' s k).foldl (outerStep gt l) st) := by
  intro k
  induction k with
  | zero =>
    intro s st _ hinv
    simpa using hinv
  | succ k ih =>
    intro s st hk hinv
    rw [List.range'_succ, List.foldl_cons]
    have hnext : PackInv gt l (s + 1) (outerStep gt l st s) :=
      outerStep_inv gt l s st (by omega) hinv
    have hres := ih (s + 1) (outerStep gt l st s) (by omega) hnext
    have harith : s + 1 + k = s + (k + 1) := by omega
    rwa [harith] at hres

/-- `packLevels` unfolded to the outer fold it is defined as. -/
theorem packLevels_eq (gt : AIN α → AIN α → α) (l : List (AIN α)) :
    packLevels gt l = ((List.range' 0 l.length).foldl (outerStep gt l) ([], [])).1 :=
  rfl

/-- The packing invariant holds of the final state of the level packer. -/
theorem packLevels_inv (gt : AIN α → AIN α → α) (l : List (AIN α)) :
    PackInv gt l l.length ((List.range' 0 l.length).foldl (outerStep gt l) ([], [])) := by
  have h0 : PackInv gt l 0 ([], []) := by
    refine ⟨rfl, List.nodup_nil, by simp, by omega, by simp, by simp, ?_, List.Pairwise.nil⟩
    intro k hk
    simp at hk
  have hres := outer_spec gt l l.length 0 ([], []) (by omega) h0
  simpa using hres

/-- The head of a nonempty list is a member. -/
theorem headD_mem {β : Type} (lvl : List β) (d : β) (h : lvl ≠ []) : lvl.headD d ∈ lvl := by
  cases lvl with
  | nil => exact absurd rfl h
  | cons x xs => exact List.mem_cons_self _ _

/-- C4: the level packing is a partition of the index set: the flattened
levels have no duplicate, an index occurs in some level exactly when it is in
range, the empty collection yields no level and a singleton collection yields
the single level `[0]`. (The packer is a total function, so the operation
never fails.) -/
theorem packLevels_partitions (gt : AIN α → AIN α → α) (l : List (AIN α)) :
    (packLevels gt l).flatten.Nodup ∧
    (∀ m, m ∈ (packLevels gt l).flatten ↔ m < l.length) ∧
    packLevels gt ([] : List (AIN α)) = [] ∧
    (∀ a : AIN α, packLevels gt [a] = [[0]]) := by
  obtain ⟨h1, h2, h3, h4, _, _, _, _⟩ := packLevels_inv gt l
  rw [packLevels_eq gt l]
  refine ⟨?_, ?_, rfl, fun a => rfl⟩
  · rw [← h1]
    exact h2
  · intro m
    rw [← h1]
    exact ⟨h3 m, h4 m⟩

/-- C10: structure of the packing: every level is nonempty; the indices
inside a level are strictly increasing; each level's seed (first member) is
the smallest index not placed in an earlier level (everything below it is
placed earlier, and it is not); and the seeds of successive levels strictly
increase. -/
theorem packLevels_seed_structure (gt : AIN α → AIN α → α) (l : List (AIN α)) :
    (∀ lvl ∈ packLevels gt l, lvl ≠ []) ∧
    (∀ lvl ∈ packLevels gt l, lvl.Pairwise (· < ·)) ∧
    (∀ k, ∀ h : k < (packLevels gt l).length,
      (∀ m, m < ((packLevels gt l).get ⟨k, h⟩).headD 0 →
        m ∈ ((packLevels gt l).take k).flatten) ∧
      ((packLevels gt l).get ⟨k, h⟩).headD 0 ∉ ((packLevels gt l).take k).flatten) ∧
    ((packLevels gt l).map (fun lvl => lvl.headD 0)).Pairwise (· < ·) := by
  obtain ⟨h1, h2, _, _, h5, _, h7, h8⟩ := packLevels_inv gt l
  rw [packLevels_eq gt l]
  set L := ((List.range' 0 l.length).foldl (outerStep gt l) ([], [])).1 with hL
  refine ⟨fun lvl hl => (h5 lvl hl).1, fun lvl hl => (h5 lvl hl).2.1, ?_, h8⟩
  intro k hk
  refine ⟨h7 k hk, ?_⟩
  intro hseed
  have hnd : L.flatten.Nodup := h1 ▸ h2
  have hsplit : L.take k ++ L.drop k = L := List.take_append_drop k L
  have hnd' : (L.take k).flatten.Disjoint (L.drop k).flatten := by
    have : ((L.take k) ++ (L.drop k)).flatten.Nodup := by
      rw [hsplit]
      exact hnd
    rw [List.flatten_append, List.nodup_append] at this
    exact this.2.2
  have hlvl : L.get ⟨k, hk⟩ ∈ L.drop k := by
    rw [List.get_eq_getElem]
    have hcd := List.getElem_cons_drop L k hk
    rw [← hcd]
    exact List.mem_cons_self _ _
  have hne : L.get ⟨k, hk⟩ ≠ [] := (h5 _ (List.mem_of_mem_drop hlvl)).1
  have hmem : (L.get ⟨k, hk⟩).headD 0 ∈ (L.drop k).flatten :=
    List.mem_flatten.mpr ⟨L.get ⟨k, hk⟩, hlvl, headD_mem _ 0 hne⟩
  exact hnd' hseed hmem

/-- Witness for C10 on the worked example: the seed of level 1 is index 1,
and index 0 (the only smaller index) is placed in level 0. -/
theorem packLevels_seed_structure_witness :
    0 ∈ ((packLevels specGT exampleAins).take 1).flatten :=
  ((packLevels_seed_structure specGT exampleAins).2.2.1 1 (by decide)).1 0 (by decide)

/-- C3 (amended): within any level, each non-seed member is compatible with
the level's seed: their mutual preference-degree product is `0` and their
intervals do not touch. (Pairwise compatibility among non-seed members is
not guaranteed; see the counterexample.) -/
theorem level_tail_compatible_with_seed (gt : AIN α → AIN α → α) (l : List (AIN α)) :
    ∀ lvl ∈ packLevels gt l, ∀ j ∈ lvl.tail,
      edgeWeight gt l (lvl.headD 0) j = 0 ∧
      (l.getD (lvl.headD 0) default).lower ≠ (l.getD j default).upper ∧
      (l.getD (lvl.headD 0) default).upper ≠ (l.getD j default).lower := by
  intro lvl hlvl j hj
  obtain ⟨_, _, _, _, h5, _, _, _⟩ := packLevels_inv gt l
  rw [packLevels_eq gt l] at hlvl
  have hskip := (h5 lvl hlvl).2.2 j hj
  simp only [skipB, Bool.or_eq_false_iff, decide_eq_false_iff_not, ne_eq, not_not] at hskip
  exact ⟨hskip.1.1, hskip.1.2, hskip.2⟩

/-- Witness for C3's amended statement on the worked example: in level
`[0, 2]`, member 2 is compatible with seed 0. -/
theorem level_tail_compatible_with_seed_witness :
    edgeWeight specGT exampleAins 0 2 = 0 ∧
    (exampleAins.getD 0 default).lower ≠ (exampleAins.getD 2 default).upper ∧
    (exampleAins.getD 0 default).upper ≠ (exampleAins.getD 2 default).lower :=
  level_tail_compatible_with_seed specGT exampleAins [0, 2] (by decide) 2 (by decide)

end AsymIntervals
